import Mathlib

/-!
Verification of the FileRevisionManager repository.

The repository consists of a tkinter GUI (src/gui.py) around a
`FileRevisionManager` engine (module `file_revision`, not present in the
sources).  The GUI keeps the watch mapping in the Python dict
`manager.FILE_PATHS` (path -> revision directory) and mutates it directly;
the engine (monitor loop, change detection, revision writing, lifecycle)
is modelled from the specification where its code is missing.
-/

/-! ## Association lists modelling Python dicts

`FILE_PATHS` is a Python dict.  We model it as an association list with
Python-dict semantics: assignment to an existing key replaces the value in
place (insertion order of the existing key is kept), assignment to a fresh
key appends it, and `del` removes the key, raising `KeyError` when absent. -/

/-- Lookup of a key in an association list, as Python `d[k]` / `k in d`. -/
def alookup {α β : Type} [DecidableEq α] (k : α) : List (α × β) → Option β
  | [] => none
  | (k2, v) :: rest => if k2 = k then some v else alookup k rest

/-- Python dict assignment `d[k] = v`: replace in place when the key exists,
append otherwise. -/
def dictInsert {α β : Type} [DecidableEq α] (k : α) (v : β) : List (α × β) → List (α × β)
  | [] => [(k, v)]
  | (k2, v2) :: rest => if k2 = k then (k, v) :: rest else (k2, v2) :: dictInsert k v rest

/-- Python dict deletion of the entry for `k` (the key occurs at most once
in a dict; this removes its first occurrence). -/
def alistErase {α β : Type} [DecidableEq α] (k : α) : List (α × β) → List (α × β)
  | [] => []
  | (k2, v2) :: rest => if k2 = k then rest else (k2, v2) :: alistErase k rest

/-- The watch mapping held by the GUI: `manager.FILE_PATHS`, a dict from
file path to revision directory (src/gui.py). -/
abbrev Config := List (String × String)

/-- The keys of the mapping, i.e. the registered file paths. -/
def keys (m : Config) : List String :=
  m.map Prod.fst

/-- The dict invariant: each path occurs at most once. -/
def keysNodup (m : Config) : Prop :=
  (keys m).Nodup

/-- Error raised by a GUI mutation; Python `del` on a missing key raises
`KeyError`, the not-found error of the dict. -/
inductive CfgErr
  | notFound
deriving DecidableEq

/-- `FileRevisionTracker.add_file_config` (src/gui.py lines 158-165): after
the dialogs, the committed mutation is `self.manager.FILE_PATHS[file_path]
= revision_dir`. -/
def add_file_config (path dir : String) (m : Config) : Config :=
  dictInsert path dir m

/-- `FileRevisionTracker.edit_file_config` (src/gui.py lines 167-179): the
committed mutation is `self.manager.FILE_PATHS[file_path] =
new_revision_dir`, a plain dict assignment. -/
def edit_file_config (path dir : String) (m : Config) : Config :=
  dictInsert path dir m

/-- `FileRevisionTracker.delete_file_config` (src/gui.py lines 181-190):
`del self.manager.FILE_PATHS[file_path]`, which raises `KeyError`
synchronously when the path is absent. -/
def delete_file_config (path : String) (m : Config) : Except CfgErr Config :=
  if (alookup path m).isSome then Except.ok (alistErase path m) else Except.error CfgErr.notFound

/-- One GUI mutation of the watch mapping. -/
inductive CfgOp
  | add (path dir : String)
  | edit (path dir : String)
  | del (path : String)
deriving DecidableEq

/-- Apply one mutation; a failing delete leaves the mapping unchanged (the
`KeyError` propagates out of the callback before any mutation happens). -/
def applyOp (m : Config) : CfgOp → Config
  | CfgOp.add p d => add_file_config p d m
  | CfgOp.edit p d => edit_file_config p d m
  | CfgOp.del p =>
    match delete_file_config p m with
    | Except.ok m2 => m2
    | Except.error _ => m

/-- Apply a sequence of GUI mutations in order. -/
def applyOps (m : Config) (ops : List CfgOp) : Config :=
  ops.foldl applyOp m

/-! ## The search bar (src/gui.py `search_files`, `reset_search`) -/

/-- Python `s.lower()` over the characters of a string. -/
def lowerChars (s : String) : List Char :=
  s.data.map Char.toLower

/-- Python substring test `p in s` on character lists: `hasSub p s` is true
when `p` occurs contiguously in `s`. -/
def hasSub (p : List Char) : List Char → Bool
  | [] => p.isEmpty
  | c :: rest => p.isPrefixOf (c :: rest) || hasSub p rest

/-- `FileRevisionTracker.search_files` (src/gui.py lines 227-237): rebuild
the table with exactly the entries whose lowercased path or lowercased
revision directory contains the lowercased search term. -/
def search_files (term : String) (m : Config) : Config :=
  m.filter fun e => hasSub (lowerChars term) (lowerChars e.1) || hasSub (lowerChars term) (lowerChars e.2)

/-- `FileRevisionTracker.load_file_config_data` (src/gui.py lines 98-103):
clear the table and insert every entry of `FILE_PATHS`. -/
def load_file_config_data (m : Config) : Config :=
  m

/-- `FileRevisionTracker.reset_search` (src/gui.py lines 209-211): clear the
search term and reload the full table. -/
def reset_search (m : Config) : Config :=
  load_file_config_data m

/-! ## The monitoring engine

The module `file_revision` (class `FileRevisionManager`) is imported by
src/gui.py but its source is not in the repository sources; the engine
below is modelled from the specification (sections 3-5 and 7). -/

/-- Modelled from the spec: the content fingerprint of `ChangeDetector`
(`file_revision` is missing from the sources).  The fingerprint strategy is
deliberately underspecified (spec section 9); we model a perfect content
fingerprint, the identity on the byte content, so that content change and
fingerprint change coincide. -/
def fingerprint (c : List Nat) : List Nat :=
  c

/-- Modelled from the spec: a WatchEntry of the WatchSet (spec section 3);
`lastFingerprint` is nullable before the first observation. -/
structure WatchEntry where
  path : String
  revisionDir : String
  lastFingerprint : Option (List Nat)
deriving DecidableEq

/-- Modelled from the spec: the per-entry errors of the engine
(spec section 7). -/
inductive EngineErr
  | readError
  | writeError
deriving DecidableEq

/-- Modelled from the spec: the structured events emitted by the
MonitorLoop (spec section 4.4). -/
inductive Ev
  | changeDetected
  | revisionWritten
  | entryError
deriving DecidableEq

/-- Outcome of processing one entry in a cycle: the updated entry, the
contents of the revisions written for it, and the events emitted. -/
structure EntryResult where
  entry : WatchEntry
  revisions : List (List Nat)
  events : List Ev
deriving DecidableEq

/-- Modelled from the spec: one MonitorLoop step for one entry
(`file_revision` is missing from the sources; spec sections 4.2-4.4 and 7).
`rd path` is the outcome of reading the watched file, `wr path` the outcome
of writing a revision for it.  A read error emits an error event and leaves
the entry untouched.  On the first observation the fingerprint is recorded
without writing a revision (the first option of the first-observation
policy of spec section 4.2).  When the fingerprint is unchanged nothing
happens.  On a change, a successful write advances the fingerprint; a
write error emits an error event and does not advance it. -/
def processEntry (rd : String → Except EngineErr (List Nat))
    (wr : String → Except EngineErr Unit) (e : WatchEntry) : EntryResult :=
  match rd e.path with
  | Except.error _ => ⟨e, [], [Ev.entryError]⟩
  | Except.ok c =>
    match e.lastFingerprint with
    | none => ⟨{ e with lastFingerprint := some (fingerprint c) }, [], []⟩
    | some old =>
      if fingerprint c = old then ⟨e, [], []⟩
      else
        match wr e.path with
        | Except.ok _ =>
          ⟨{ e with lastFingerprint := some (fingerprint c) }, [c], [Ev.changeDetected, Ev.revisionWritten]⟩
        | Except.error _ => ⟨e, [], [Ev.changeDetected, Ev.entryError]⟩

/-- Outcome of one full cycle: updated entries in order, all revisions
written, all events emitted. -/
structure CycleResult where
  entries : List WatchEntry
  revisions : List (List Nat)
  events : List Ev
deriving DecidableEq

/-- Modelled from the spec: one MonitorLoop cycle over a snapshot of the
WatchSet (`file_revision` is missing from the sources; spec section 4.4):
the entries are processed one after the other in snapshot order,
and a per-entry failure never aborts the cycle. -/
def runCycle (rd : String → Except EngineErr (List Nat))
    (wr : String → Except EngineErr Unit) : List WatchEntry → CycleResult
  | [] => ⟨[], [], []⟩
  | e :: es =>
    let r := processEntry rd wr e
    let rest := runCycle rd wr es
    ⟨r.entry :: rest.entries, r.revisions ++ rest.revisions, r.events ++ rest.events⟩

/-- Modelled from the spec: the lifecycle state of `FileRevisionManager`
(`file_revision` is missing from the sources; spec section 4.5): a running
flag and the watch entries with their detection state. -/
structure Manager where
  running : Bool
  entries : List WatchEntry
deriving DecidableEq

/-- Modelled from the spec: `FileRevisionManager.start_monitoring`
(spec section 4.5): a no-op when already running; otherwise it marks the
loop running, keeping every entry and its fingerprint. -/
def start_monitoring (m : Manager) : Manager :=
  if m.running then m else { m with running := true }

/-- Modelled from the spec: `FileRevisionManager.stop_monitoring`
(spec section 4.5): a no-op when already stopped; otherwise it halts the
loop, keeping every entry and its fingerprint. -/
def stop_monitoring (m : Manager) : Manager :=
  if m.running then { m with running := false } else m

/-! ## The revision writer on disk

A revision directory is modelled as a mapping from file names to byte
contents. -/

/-- A file name. -/
abbrev FName := List Char

/-- A directory: file names mapped to byte contents. -/
abbrev Dir := List (FName × List Nat)

/-- Modelled from the spec: the externally observable states of the
revision directory during one `RevisionWriter.write` (`file_revision` is
missing from the sources; spec section 4.3): before the write, while the
temporary file holds a first portion of the content, and after the atomic
rename. -/
inductive WriteObs
  | initial
  | writing (k : Nat)
  | renamed
deriving DecidableEq

/-- Modelled from the spec: the revision directory as an external reader
sees it at each observable point of `RevisionWriter.write` (spec section
4.3): the content goes to the temporary file `tmp` first, and the atomic
rename replaces `tmp` by the final name `fin` holding the full content. -/
def observedDir (d : Dir) (tmp fin : FName) (c : List Nat) : WriteObs → Dir
  | WriteObs.initial => d
  | WriteObs.writing k => dictInsert tmp (c.take k) d
  | WriteObs.renamed => dictInsert fin c (alistErase tmp d)

/-- Modelled from the spec: the candidate names tried by the revision
naming scheme (spec section 4.3): the derived name itself, then the name
with an ever longer disambiguating suffix appended. -/
def cand (nm : FName) (i : Nat) : FName :=
  nm ++ List.replicate i '_'

/-- Modelled from the spec: on a naming collision the writer appends a
disambiguating suffix rather than overwriting (spec section 4.3): the
first candidate name free in the directory is chosen.  Among the first
`d.length + 1` candidates one is always free, so the fallback branch is
never reached. -/
def disambiguate (d : Dir) (nm : FName) : FName :=
  match (List.range (d.length + 1)).find? (fun i => (alookup (cand nm i) d).isNone) with
  | some i => cand nm i
  | none => cand nm (d.length + 1)

/-- Modelled from the spec: `RevisionWriter.write` at the directory level
(`file_revision` is missing from the sources; spec section 4.3): the new
revision is created under a fresh disambiguated name; no existing file is
touched.  Returns the new directory and the name written. -/
def writeRevision (d : Dir) (nm : FName) (c : List Nat) : Dir × FName :=
  let n := disambiguate d nm
  ((n, c) :: d, n)

/-! ## Lemmas about the dict model -/

theorem alookup_dictInsert_self {α β : Type} [DecidableEq α] (k : α) (v : β)
    (m : List (α × β)) : alookup k (dictInsert k v m) = some v := by
  induction m with
  | nil => simp [dictInsert, alookup]
  | cons p rest ih =>
    obtain ⟨k2, v2⟩ := p
    by_cases h : k2 = k <;> simp [dictInsert, alookup, h, ih]

theorem alookup_dictInsert_ne {α β : Type} [DecidableEq α] {k2 k : α} (v : β)
    (m : List (α × β)) (h : k2 ≠ k) : alookup k2 (dictInsert k v m) = alookup k2 m := by
  have hne : ¬(k = k2) := fun hkk => h hkk.symm
  induction m with
  | nil => simp [dictInsert, alookup, hne]
  | cons p rest ih =>
    obtain ⟨k3, v3⟩ := p
    by_cases h3 : k3 = k
    · subst h3
      simp [dictInsert, alookup, hne]
    · simp [dictInsert, alookup, h3, ih]

theorem alookup_alistErase_ne {α β : Type} [DecidableEq α] {k2 k : α}
    (m : List (α × β)) (h : k2 ≠ k) : alookup k2 (alistErase k m) = alookup k2 m := by
  have hne : ¬(k = k2) := fun hkk => h hkk.symm
  induction m with
  | nil => simp [alistErase]
  | cons p rest ih =>
    obtain ⟨k3, v3⟩ := p
    by_cases h3 : k3 = k
    · subst h3
      simp [alistErase, alookup, hne]
    · simp [alistErase, alookup, h3, ih]

theorem mem_keys_of_alookup_ne_none {α β : Type} [DecidableEq α] (k : α)
    (m : List (α × β)) (h : alookup k m ≠ none) : k ∈ m.map Prod.fst := by
  induction m with
  | nil => exact absurd rfl h
  | cons p rest ih =>
    obtain ⟨k2, v2⟩ := p
    rw [List.map_cons]
    by_cases hk : k2 = k
    · subst hk
      exact List.mem_cons_self _ _
    · refine List.mem_cons_of_mem _ (ih ?_)
      intro hn
      exact h (by simp [alookup, hk, hn])

theorem keysMap_dictInsert {α β : Type} [DecidableEq α] (k : α) (v : β)
    (m : List (α × β)) :
    (dictInsert k v m).map Prod.fst =
      if k ∈ m.map Prod.fst then m.map Prod.fst else m.map Prod.fst ++ [k] := by
  induction m with
  | nil => simp [dictInsert]
  | cons p rest ih =>
    obtain ⟨k2, v2⟩ := p
    by_cases h2 : k2 = k
    · subst h2
      simp [dictInsert]
    · have hkk : ¬(k = k2) := fun hkk => h2 hkk.symm
      by_cases hk : k ∈ rest.map Prod.fst <;>
        simp [dictInsert, h2, ih, hk, hkk]

theorem nodup_dictInsert {α β : Type} [DecidableEq α] (k : α) (v : β)
    (m : List (α × β)) (h : (m.map Prod.fst).Nodup) :
    ((dictInsert k v m).map Prod.fst).Nodup := by
  rw [keysMap_dictInsert]
  by_cases hk : k ∈ m.map Prod.fst
  · simpa [hk] using h
  · simp [hk, List.nodup_append, h]

theorem alistErase_sublist {α β : Type} [DecidableEq α] (k : α)
    (m : List (α × β)) : List.Sublist (alistErase k m) m := by
  induction m with
  | nil => simp [alistErase]
  | cons p rest ih =>
    obtain ⟨k2, v2⟩ := p
    by_cases h2 : k2 = k
    · simp [alistErase, h2]
    · simpa [alistErase, h2] using ih.cons₂ (k2, v2)

theorem nodup_alistErase {α β : Type} [DecidableEq α] (k : α)
    (m : List (α × β)) (h : (m.map Prod.fst).Nodup) :
    ((alistErase k m).map Prod.fst).Nodup :=
  h.sublist ((alistErase_sublist k m).map Prod.fst)

/-! ## Lemmas about the search model -/

theorem hasSub_nil (s : List Char) : hasSub [] s = true := by
  induction s with
  | nil => rfl
  | cons c rest ih => simp [hasSub, List.isPrefixOf, ih]

/-! ## Lemmas about the monitoring cycle -/

theorem processEntry_unchanged (rd : String → Except EngineErr (List Nat))
    (wr : String → Except EngineErr Unit) (e : WatchEntry) (c : List Nat)
    (hc : rd e.path = Except.ok c) (hf : e.lastFingerprint = some (fingerprint c)) :
    processEntry rd wr e = ⟨e, [], []⟩ := by
  simp [processEntry, hc, hf]

theorem runCycle_no_change (rd : String → Except EngineErr (List Nat))
    (wr : String → Except EngineErr Unit) (es : List WatchEntry)
    (h : ∀ e ∈ es, ∃ c, rd e.path = Except.ok c ∧ e.lastFingerprint = some (fingerprint c)) :
    runCycle rd wr es = ⟨es, [], []⟩ := by
  induction es with
  | nil => rfl
  | cons e es ih =>
    obtain ⟨c, hc, hf⟩ := h e (List.mem_cons_self _ _)
    rw [runCycle, processEntry_unchanged rd wr e c hc hf,
      ih fun e2 he2 => h e2 (List.mem_cons_of_mem _ he2)]
    rfl

theorem runCycle_append (rd : String → Except EngineErr (List Nat))
    (wr : String → Except EngineErr Unit) (as bs : List WatchEntry) :
    runCycle rd wr (as ++ bs) =
      ⟨(runCycle rd wr as).entries ++ (runCycle rd wr bs).entries,
       (runCycle rd wr as).revisions ++ (runCycle rd wr bs).revisions,
       (runCycle rd wr as).events ++ (runCycle rd wr bs).events⟩ := by
  induction as with
  | nil => simp [runCycle]
  | cons a as ih => simp [runCycle, ih]

theorem processEntry_error_shape (rd : String → Except EngineErr (List Nat))
    (wr : String → Except EngineErr Unit) (e : WatchEntry)
    (h : Ev.entryError ∈ (processEntry rd wr e).events) :
    processEntry rd wr e = ⟨e, [], (processEntry rd wr e).events⟩ := by
  cases hr : rd e.path with
  | error err => simp [processEntry, hr]
  | ok c =>
    cases hf : e.lastFingerprint with
    | none => simp [processEntry, hr, hf] at h
    | some old =>
      by_cases hch : fingerprint c = old
      · simp [processEntry, hr, hf, hch] at h
      · cases hw : wr e.path with
        | ok u => simp [processEntry, hr, hf, hch, hw] at h
        | error err => simp [processEntry, hr, hf, hch, hw]

/-! ## Lemmas about the revision naming scheme -/

theorem cand_inj (nm : FName) : Function.Injective (cand nm) := by
  intro i j hij
  have hlen := congrArg List.length hij
  simpa [cand] using hlen

theorem disambiguate_fresh (d : Dir) (nm : FName) :
    alookup (disambiguate d nm) d = none := by
  unfold disambiguate
  cases hfind : (List.range (d.length + 1)).find? (fun i => (alookup (cand nm i) d).isNone) with
  | some i =>
    have hp := List.find?_some hfind
    simpa [Option.isNone_iff_eq_none] using hp
  | none =>
    exfalso
    have hall := List.find?_eq_none.mp hfind
    have hmem : ∀ i ∈ List.range (d.length + 1), cand nm i ∈ d.map Prod.fst := by
      intro i hi
      refine mem_keys_of_alookup_ne_none _ _ ?_
      have hni := hall i hi
      simpa [Option.isNone_iff_eq_none] using hni
    have hnd : ((List.range (d.length + 1)).map (cand nm)).Nodup :=
      (List.nodup_range _).map (cand_inj nm)
    have hsub : (List.range (d.length + 1)).map (cand nm) ⊆ d.map Prod.fst := by
      intro x hx
      obtain ⟨i, hi, rfl⟩ := List.mem_map.mp hx
      exact hmem i hi
    have hle := (hnd.subperm hsub).length_le
    simp at hle

theorem runCycle_entries_length (rd : String → Except EngineErr (List Nat))
    (wr : String → Except EngineErr Unit) (es : List WatchEntry) :
    (runCycle rd wr es).entries.length = es.length := by
  induction es with
  | nil => rfl
  | cons e es ih => simp [runCycle, ih]

/-! ## Claims -/

/-- C1: during `RevisionWriter.write` the content goes to a temporary file
inside the revision directory first and reaches its final name only through
the atomic rename: at every observable point the final name is bound either
as before the write or to the complete content, never to a partial one, and
after the rename it holds the complete content. -/
theorem revision_writer_atomic (d : Dir) (tmp fin : FName) (c : List Nat)
    (h : tmp ≠ fin) :
    (∀ o, alookup fin (observedDir d tmp fin c o) = alookup fin d ∨
      alookup fin (observedDir d tmp fin c o) = some c) ∧
    alookup fin (observedDir d tmp fin c WriteObs.renamed) = some c := by
  have hfr : fin ≠ tmp := fun hft => h hft.symm
  constructor
  · intro o
    cases o with
    | initial => exact Or.inl rfl
    | writing k =>
      exact Or.inl (by simp [observedDir, alookup_dictInsert_ne _ _ hfr])
    | renamed => exact Or.inr (by simp [observedDir, alookup_dictInsert_self])
  · simp [observedDir, alookup_dictInsert_self]

theorem revision_writer_atomic_witness :
    (['t'] : FName) ≠ ['f'] ∧
    (alookup ['f'] (observedDir [] ['t'] ['f'] [7] (WriteObs.writing 0)) =
        alookup ['f'] ([] : Dir) ∨
      alookup ['f'] (observedDir [] ['t'] ['f'] [7] (WriteObs.writing 0)) = some [7]) ∧
    alookup ['f'] (observedDir [] ['t'] ['f'] [7] WriteObs.renamed) = some [7] :=
  ⟨by decide, (revision_writer_atomic [] ['t'] ['f'] [7] (by decide)).1 (WriteObs.writing 0),
    (revision_writer_atomic [] ['t'] ['f'] [7] (by decide)).2⟩

/-- C2: for an entry whose stored fingerprint records content `c0`, a check
that sees changed content `c1` writes exactly one revision capturing `c1`
and advances the fingerprint to match the file, so a further check of the
same content writes nothing more; and when the content changed twice
(from `c0` to `c1` to `c2`) between two checks, the single check that sees
`c2` writes exactly one revision capturing the final content `c2`. -/
theorem single_revision_per_change (e : WatchEntry) (c0 c1 c2 : List Nat)
    (h0 : e.lastFingerprint = some (fingerprint c0))
    (h1 : fingerprint c1 ≠ fingerprint c0)
    (h2 : fingerprint c2 ≠ fingerprint c0) :
    (processEntry (fun _ => Except.ok c1) (fun _ => Except.ok ()) e).revisions = [c1] ∧
    (processEntry (fun _ => Except.ok c1) (fun _ => Except.ok ()) e).entry.lastFingerprint =
      some (fingerprint c1) ∧
    (processEntry (fun _ => Except.ok c1) (fun _ => Except.ok ())
      ((processEntry (fun _ => Except.ok c1) (fun _ => Except.ok ()) e).entry)).revisions = [] ∧
    (processEntry (fun _ => Except.ok c2) (fun _ => Except.ok ()) e).revisions = [c2] := by
  refine ⟨?_, ?_, ?_, ?_⟩ <;> simp [processEntry, h0, h1, h2]

theorem single_revision_per_change_witness :
    (⟨"p", "r", some [0]⟩ : WatchEntry).lastFingerprint = some (fingerprint [0]) ∧
    fingerprint [1] ≠ fingerprint [0] ∧
    fingerprint [2] ≠ fingerprint [0] ∧
    ((processEntry (fun _ => Except.ok [1]) (fun _ => Except.ok ())
        (⟨"p", "r", some [0]⟩ : WatchEntry)).revisions = [[1]] ∧
      (processEntry (fun _ => Except.ok [1]) (fun _ => Except.ok ())
        (⟨"p", "r", some [0]⟩ : WatchEntry)).entry.lastFingerprint = some (fingerprint [1]) ∧
      (processEntry (fun _ => Except.ok [1]) (fun _ => Except.ok ())
        ((processEntry (fun _ => Except.ok [1]) (fun _ => Except.ok ())
          (⟨"p", "r", some [0]⟩ : WatchEntry)).entry)).revisions = [] ∧
      (processEntry (fun _ => Except.ok [2]) (fun _ => Except.ok ())
        (⟨"p", "r", some [0]⟩ : WatchEntry)).revisions = [[2]]) :=
  ⟨rfl, by decide, by decide,
    single_revision_per_change ⟨"p", "r", some [0]⟩ [0] [1] [2] rfl (by decide) (by decide)⟩

/-- C3: a cycle in which every watched file reads back content whose
fingerprint equals the stored one writes no revision and leaves every
entry, hence the revision directory, unchanged. -/
theorem cycle_idempotent_no_change (rd : String → Except EngineErr (List Nat))
    (wr : String → Except EngineErr Unit) (es : List WatchEntry)
    (h : ∀ e ∈ es, ∃ c, rd e.path = Except.ok c ∧ e.lastFingerprint = some (fingerprint c)) :
    (runCycle rd wr es).entries = es ∧ (runCycle rd wr es).revisions = [] := by
  simp [runCycle_no_change rd wr es h]

theorem cycle_idempotent_no_change_witness :
    (∀ e ∈ ([⟨"p", "r", some [0]⟩] : List WatchEntry),
      ∃ c, (fun _ : String => (Except.ok [0] : Except EngineErr (List Nat))) e.path =
        Except.ok c ∧ e.lastFingerprint = some (fingerprint c)) ∧
    ((runCycle (fun _ => Except.ok [0]) (fun _ => Except.ok ())
        [⟨"p", "r", some [0]⟩]).entries = [⟨"p", "r", some [0]⟩] ∧
      (runCycle (fun _ => Except.ok [0]) (fun _ => Except.ok ())
        [⟨"p", "r", some [0]⟩]).revisions = []) := by
  have h : ∀ e ∈ ([⟨"p", "r", some [0]⟩] : List WatchEntry),
      ∃ c, (fun _ : String => (Except.ok [0] : Except EngineErr (List Nat))) e.path =
        Except.ok c ∧ e.lastFingerprint = some (fingerprint c) := by
    intro e he
    have he2 := List.mem_singleton.mp he
    subst he2
    exact ⟨[0], rfl, rfl⟩
  exact ⟨h, cycle_idempotent_no_change _ _ _ h⟩

/-- C4: a revision, once written, survives every later engine write
unchanged (the engine only ever adds files), the new revision appears under
the chosen name with its full content, and on a naming collision the chosen
name differs from the colliding one by a disambiguating suffix instead of
overwriting it. -/
theorem revision_write_once (d : Dir) (nm : FName) (c : List Nat) :
    (∀ n v, alookup n d = some v → alookup n (writeRevision d nm c).1 = some v) ∧
    alookup (writeRevision d nm c).2 (writeRevision d nm c).1 = some c ∧
    ((alookup nm d).isSome = true → (writeRevision d nm c).2 ≠ nm) := by
  have hfresh := disambiguate_fresh d nm
  refine ⟨?_, ?_, ?_⟩
  · intro n v hv
    have hne : ¬(disambiguate d nm = n) := by
      intro heq
      rw [heq, hv] at hfresh
      exact Option.noConfusion hfresh
    simp [writeRevision, alookup, hne, hv]
  · simp [writeRevision, alookup]
  · intro hsome heq
    have h2 : disambiguate d nm = nm := heq
    rw [h2] at hfresh
    rw [hfresh] at hsome
    exact Bool.noConfusion hsome

theorem revision_write_once_witness :
    alookup ['a'] ([(['a'], [1])] : Dir) = some [1] ∧
    alookup ['a'] (writeRevision [(['a'], [1])] ['a'] [2]).1 = some [1] ∧
    (alookup ['a'] ([(['a'], [1])] : Dir)).isSome = true ∧
    (writeRevision [(['a'], [1])] ['a'] [2]).2 ≠ ['a'] :=
  ⟨by decide, (revision_write_once [(['a'], [1])] ['a'] [2]).1 ['a'] [1] (by decide), by decide,
    (revision_write_once [(['a'], [1])] ['a'] [2]).2.2 (by decide)⟩

/-- C5: a per-entry failure during a cycle is caught at the cycle level:
the other entries before and after it are processed exactly as they would
be on their own, the failing entry is returned unchanged (its fingerprint
does not advance, so the change is retried next cycle) and contributes no
revision, an error event is emitted, and the cycle still covers every
entry instead of aborting. -/
theorem monitor_error_isolation (rd : String → Except EngineErr (List Nat))
    (wr : String → Except EngineErr Unit) (es1 es2 : List WatchEntry) (e : WatchEntry)
    (h : Ev.entryError ∈ (processEntry rd wr e).events) :
    (runCycle rd wr (es1 ++ e :: es2)).entries =
      (runCycle rd wr es1).entries ++ e :: (runCycle rd wr es2).entries ∧
    (runCycle rd wr (es1 ++ e :: es2)).revisions =
      (runCycle rd wr es1).revisions ++ (runCycle rd wr es2).revisions ∧
    Ev.entryError ∈ (runCycle rd wr (es1 ++ e :: es2)).events ∧
    (runCycle rd wr (es1 ++ e :: es2)).entries.length = (es1 ++ e :: es2).length := by
  have hshape := processEntry_error_shape rd wr e h
  have hent : (processEntry rd wr e).entry = e := by rw [hshape]
  have hrev : (processEntry rd wr e).revisions = [] := by rw [hshape]
  refine ⟨?_, ?_, ?_, runCycle_entries_length rd wr _⟩
  · rw [runCycle_append]
    simp [runCycle, hent]
  · rw [runCycle_append]
    simp [runCycle, hrev]
  · rw [runCycle_append]
    simp only [List.mem_append]
    refine Or.inr ?_
    simp only [runCycle, List.mem_append]
    exact Or.inl h

theorem monitor_error_isolation_witness :
    Ev.entryError ∈ (processEntry (fun _ => Except.error EngineErr.readError)
      (fun _ => Except.ok ()) (⟨"p", "r", some [0]⟩ : WatchEntry)).events ∧
    ((runCycle (fun _ => Except.error EngineErr.readError) (fun _ => Except.ok ())
        ([] ++ (⟨"p", "r", some [0]⟩ : WatchEntry) :: [])).entries =
      (runCycle (fun _ => Except.error EngineErr.readError) (fun _ => Except.ok ()) []).entries ++
        (⟨"p", "r", some [0]⟩ : WatchEntry) ::
          (runCycle (fun _ => Except.error EngineErr.readError) (fun _ => Except.ok ()) []).entries ∧
      (runCycle (fun _ => Except.error EngineErr.readError) (fun _ => Except.ok ())
        ([] ++ (⟨"p", "r", some [0]⟩ : WatchEntry) :: [])).revisions =
      (runCycle (fun _ => Except.error EngineErr.readError) (fun _ => Except.ok ()) []).revisions ++
        (runCycle (fun _ => Except.error EngineErr.readError) (fun _ => Except.ok ()) []).revisions ∧
      Ev.entryError ∈ (runCycle (fun _ => Except.error EngineErr.readError) (fun _ => Except.ok ())
        ([] ++ (⟨"p", "r", some [0]⟩ : WatchEntry) :: [])).events ∧
      (runCycle (fun _ => Except.error EngineErr.readError) (fun _ => Except.ok ())
        ([] ++ (⟨"p", "r", some [0]⟩ : WatchEntry) :: [])).entries.length =
        ([] ++ (⟨"p", "r", some [0]⟩ : WatchEntry) :: []).length) :=
  ⟨by decide,
    monitor_error_isolation (fun _ => Except.error EngineErr.readError) (fun _ => Except.ok ())
      [] [] ⟨"p", "r", some [0]⟩ (by decide)⟩

/-- C7: as amended: deleting a path not present in the mapping fails
synchronously with the not-found error (the Python `KeyError` of `del`),
while editing a path not present does not fail: the dict assignment inserts
the new binding. -/
theorem remove_absent_not_found (m : Config) (p d : String)
    (h : alookup p m = none) :
    delete_file_config p m = Except.error CfgErr.notFound ∧
    alookup p (edit_file_config p d m) = some d := by
  constructor
  · simp [delete_file_config, h]
  · simp [edit_file_config, alookup_dictInsert_self]

theorem remove_absent_not_found_witness :
    alookup "q" ([("a", "b")] : Config) = none ∧
    (delete_file_config "q" [("a", "b")] = Except.error CfgErr.notFound ∧
      alookup "q" (edit_file_config "q" "r" [("a", "b")]) = some "r") :=
  ⟨by decide, remove_absent_not_found [("a", "b")] "q" "r" (by decide)⟩

/-- C7 counterexample: the claim says an update (edit) targeting a path not
present fails with the not-found error; in the code the edit is a plain
dict assignment, which cannot fail — on the path "p", absent from the empty
mapping, it succeeds and inserts the binding instead. -/
theorem edit_absent_inserts :
    alookup "p" ([] : Config) = none ∧ edit_file_config "p" "r" [] = [("p", "r")] :=
  ⟨rfl, rfl⟩

/-- C8: from a mapping whose paths are unique, every sequence of add, edit
and delete operations keeps the paths unique, so at most one entry per
path ever exists (each path occurs at most once), and an add or edit of an
already registered path rebinds it to the new value (last write wins)
rather than creating a duplicate. -/
theorem watchset_unique_paths (m : Config) (ops : List CfgOp) (p d : String)
    (h : keysNodup m) :
    keysNodup (applyOps m ops) ∧
    (keys (applyOps m ops)).count p ≤ 1 ∧
    alookup p (add_file_config p d m) = some d ∧
    alookup p (edit_file_config p d m) = some d := by
  have hpres : ∀ (ops : List CfgOp) (m : Config), keysNodup m → keysNodup (applyOps m ops) := by
    intro ops
    induction ops with
    | nil => intro m hm; exact hm
    | cons op rest ih =>
      intro m hm
      have h1 : keysNodup (applyOp m op) := by
        cases op with
        | add p2 d2 => exact nodup_dictInsert p2 d2 m hm
        | edit p2 d2 => exact nodup_dictInsert p2 d2 m hm
        | del p2 =>
          by_cases hp : (alookup p2 m).isSome
          · simpa [applyOp, delete_file_config, hp, keysNodup, keys] using nodup_alistErase p2 m hm
          · simpa [applyOp, delete_file_config, hp] using hm
      simpa [applyOps, List.foldl] using ih (applyOp m op) h1
  refine ⟨hpres ops m h, ?_, ?_, ?_⟩
  · exact List.nodup_iff_count_le_one.mp (hpres ops m h) p
  · exact alookup_dictInsert_self p d m
  · exact alookup_dictInsert_self p d m

theorem watchset_unique_paths_witness :
    keysNodup ([("a", "b")] : Config) ∧
    (keysNodup (applyOps [("a", "b")] [CfgOp.add "a" "c", CfgOp.del "a", CfgOp.edit "x" "y"]) ∧
      (keys (applyOps [("a", "b")] [CfgOp.add "a" "c", CfgOp.del "a", CfgOp.edit "x" "y"])).count "a" ≤ 1 ∧
      alookup "a" (add_file_config "a" "z" [("a", "b")]) = some "z" ∧
      alookup "a" (edit_file_config "a" "z" [("a", "b")]) = some "z") :=
  ⟨by simp [keysNodup, keys],
    watchset_unique_paths [("a", "b")] [CfgOp.add "a" "c", CfgOp.del "a", CfgOp.edit "x" "y"]
      "a" "z" (by simp [keysNodup, keys])⟩

/-- C9: stopping then starting the manager preserves every entry and its
fingerprint, leaves the manager running, and a cycle over the preserved
entries whose file contents are unchanged writes no revision; moreover
start is a no-op when already running and stop is a no-op when already
stopped. -/
theorem stop_start_resume (m : Manager) (rd : String → Except EngineErr (List Nat))
    (wr : String → Except EngineErr Unit)
    (h : ∀ e ∈ m.entries, ∃ c, rd e.path = Except.ok c ∧ e.lastFingerprint = some (fingerprint c)) :
    (start_monitoring (stop_monitoring m)).entries = m.entries ∧
    (start_monitoring (stop_monitoring m)).running = true ∧
    (runCycle rd wr (start_monitoring (stop_monitoring m)).entries).revisions = [] ∧
    (m.running = true → start_monitoring m = m) ∧
    (m.running = false → stop_monitoring m = m) := by
  have hent : (start_monitoring (stop_monitoring m)).entries = m.entries := by
    cases hr : m.running <;> simp [start_monitoring, stop_monitoring, hr]
  have hrun : (start_monitoring (stop_monitoring m)).running = true := by
    cases hr : m.running <;> simp [start_monitoring, stop_monitoring, hr]
  refine ⟨hent, hrun, ?_, ?_, ?_⟩
  · rw [hent, runCycle_no_change rd wr m.entries h]
  · intro hr
    simp [start_monitoring, hr]
  · intro hr
    simp [stop_monitoring, hr]

theorem stop_start_resume_witness :
    (∀ e ∈ (⟨true, [⟨"p", "r", some [0]⟩]⟩ : Manager).entries,
      ∃ c, (fun _ : String => (Except.ok [0] : Except EngineErr (List Nat))) e.path =
        Except.ok c ∧ e.lastFingerprint = some (fingerprint c)) ∧
    ((start_monitoring (stop_monitoring ⟨true, [⟨"p", "r", some [0]⟩]⟩)).entries =
        (⟨true, [⟨"p", "r", some [0]⟩]⟩ : Manager).entries ∧
      (start_monitoring (stop_monitoring ⟨true, [⟨"p", "r", some [0]⟩]⟩)).running = true ∧
      (runCycle (fun _ => Except.ok [0]) (fun _ => Except.ok ())
        (start_monitoring (stop_monitoring ⟨true, [⟨"p", "r", some [0]⟩]⟩)).entries).revisions = [] ∧
      ((⟨true, [⟨"p", "r", some [0]⟩]⟩ : Manager).running = true →
        start_monitoring ⟨true, [⟨"p", "r", some [0]⟩]⟩ = ⟨true, [⟨"p", "r", some [0]⟩]⟩) ∧
      ((⟨true, [⟨"p", "r", some [0]⟩]⟩ : Manager).running = false →
        stop_monitoring ⟨true, [⟨"p", "r", some [0]⟩]⟩ = ⟨true, [⟨"p", "r", some [0]⟩]⟩)) := by
  have h : ∀ e ∈ (⟨true, [⟨"p", "r", some [0]⟩]⟩ : Manager).entries,
      ∃ c, (fun _ : String => (Except.ok [0] : Except EngineErr (List Nat))) e.path =
        Except.ok c ∧ e.lastFingerprint = some (fingerprint c) := by
    intro e he
    have he2 := List.mem_singleton.mp he
    subst he2
    exact ⟨[0], rfl, rfl⟩
  exact ⟨h, stop_start_resume ⟨true, [⟨"p", "r", some [0]⟩]⟩ _ _ h⟩

/-- C10: once the debounced search runs, the table holds exactly those
entries of the mapping whose lowercased path or lowercased revision
directory contains the lowercased search term; the empty term keeps every
entry, and the reset restores the full list. -/
theorem search_filter_exact (term : String) (m : Config) (e : String × String) :
    (e ∈ search_files term m ↔
      e ∈ m ∧ (hasSub (lowerChars term) (lowerChars e.1) = true ∨
        hasSub (lowerChars term) (lowerChars e.2) = true)) ∧
    search_files "" m = m ∧
    reset_search m = m := by
  refine ⟨?_, ?_, rfl⟩
  · simp [search_files, List.mem_filter, Bool.or_eq_true]
  · have hempty : lowerChars "" = [] := rfl
    simp [search_files, hempty, hasSub_nil]
